import Mathlib

/-!
Verification of the multipath-nn routing core against its specification.

The development shallowly embeds `scripts/lib/net_types.py` (the later, most
complete variant of the routing/training logic, which the specification
declares authoritative) over exact real arithmetic, one example at a time:

* a layer tree (`Layer`) carrying per-example local loss `c_err`, operation
  count `n_ops`, the router output row `rx` (the value of `ℓ.router.x` for
  this example) and the router operation count `r_n_ops`;
* the structural prior `w_struct` built from leaf counts (`n_leaves`);
* the training policy `π_tr = (1-ε)·softmax(router.x/τ) + ε·w_struct` and the
  evaluation policy `π_ev = onehot(argmax router.x)` shared verbatim by the
  decision-smoothing, actor and cost-regression variants
  (`route_sinks_ds_dyn`, `route_sinks_ac_dyn`, `route_sinks_cr_dyn`);
* the bottom-up cost aggregates `c_ev`, `c_opt`, `c_cre`, `c_rtr`;
* the error-mapping state machine of `add_error_mapping`;
* the gradient-scaling optimizer wrapper `minimize_expected`.

Tensor reductions become list sums; TensorFlow `argmax` keeps its
first-matching-index tie-break.
-/

namespace Multipath

/-- A node of the layer tree, restricted to the fields the routing code
reads: per-example local loss `c_err`, operation count `n_ops`, the router
output row `rx` (`ℓ.router.x` for the current example), the router operation
count `r_n_ops`, and the ordered child list `sinks`. -/
inductive Layer : Type where
  | mk (c_err n_ops : ℝ) (rx : List ℝ) (r_n_ops : ℝ) (sinks : List Layer) : Layer

def Layer.c_err : Layer → ℝ
  | .mk e _ _ _ _ => e

def Layer.n_ops : Layer → ℝ
  | .mk _ n _ _ _ => n

def Layer.rx : Layer → List ℝ
  | .mk _ _ r _ _ => r

def Layer.r_n_ops : Layer → ℝ
  | .mk _ _ _ rn _ => rn

def Layer.sinks : Layer → List Layer
  | .mk _ _ _ _ s => s

/-- Structural induction for the nested inductive `Layer`. -/
theorem Layer.ind {motive : Layer → Prop}
    (h : ∀ ce no rx rno sinks, (∀ s ∈ sinks, motive s) →
      motive (Layer.mk ce no rx rno sinks)) :
    ∀ ℓ, motive ℓ
  | .mk ce no rx rno sinks =>
      h ce no rx rno sinks (fun s hs =>
        have : sizeOf s < sizeOf (Layer.mk ce no rx rno sinks) := by
          have h1 := List.sizeOf_lt_of_mem hs
          simp only [Layer.mk.sizeOf_spec]
          omega
        Layer.ind h s)
termination_by ℓ => sizeOf ℓ

mutual

/-- Leaf count `n_leaves` from `route_sinks_*_dyn`: a node with no sinks counts as one
leaf, otherwise the leaf counts of the sinks are summed. -/
def n_leaves : Layer → ℕ
  | .mk _ _ _ _ [] => 1
  | .mk _ _ _ _ (s :: ss) => n_leaves s + n_leavesL ss

/-- Sum of `n_leaves` over a list of layers. -/
def n_leavesL : List Layer → ℕ
  | [] => 0
  | s :: ss => n_leaves s + n_leavesL ss

end

/-- Maximum of a list of reals (value of `tf.reduce_max` on a nonempty row;
`0` on the empty row, which the code never produces). -/
noncomputable def listMax : List ℝ → ℝ
  | [] => 0
  | [x] => x
  | x :: y :: t => max x (listMax (y :: t))

/-- Index of the first occurrence of the maximum: the tie-breaking behaviour
of `tf.argmax`, which returns the smallest index attaining the maximum. -/
noncomputable def argmaxIdx : List ℝ → ℕ
  | [] => 0
  | [_] => 0
  | x :: y :: t => if listMax (y :: t) ≤ x then 0 else argmaxIdx (y :: t) + 1

/-- Minimum of a list of reals. -/
noncomputable def listMin : List ℝ → ℝ
  | [] => 0
  | [x] => x
  | x :: y :: t => min x (listMin (y :: t))

/-- Index of the first occurrence of the minimum (`tf.argmin` semantics). -/
noncomputable def argminIdx : List ℝ → ℕ
  | [] => 0
  | [_] => 0
  | x :: y :: t => if x ≤ listMin (y :: t) then 0 else argminIdx (y :: t) + 1

/-- Softmax `tf.nn.softmax(z / τ)`: exponentials of the temperature-scaled row,
normalized by their sum. -/
noncomputable def softmaxRow (τ : ℝ) (z : List ℝ) : List ℝ :=
  (z.map (fun a => Real.exp (a / τ))).map
    (fun e => e / (z.map (fun a => Real.exp (a / τ))).sum)

/-- Structural prior `w_struct = np.divide(list(map(n_leaves, ℓ.sinks)),
n_leaves(ℓ))`. -/
noncomputable def w_struct (ℓ : Layer) : List ℝ :=
  ℓ.sinks.map (fun s => (n_leaves s : ℝ) / (n_leaves ℓ : ℝ))

/-- Training policy row `π_tr = (1 - ϵ) * tf.nn.softmax(ℓ.router.x / τ)
+ ϵ * w_struct`, identical in `route_sinks_ds_dyn`, `route_sinks_ac_dyn` and
`route_sinks_cr_dyn`. -/
noncomputable def π_tr (ε τ : ℝ) (ℓ : Layer) : List ℝ :=
  List.zipWith (fun p w => (1 - ε) * p + ε * w) (softmaxRow τ ℓ.rx) (w_struct ℓ)

/-- Evaluation policy row `π_ev = tf.to_float(tf.equal(
tf.expand_dims(tf.to_int32(tf.argmax(ℓ.router.x, 1)), 1),
tf.range(len(ℓ.sinks))))`, identical in all three dynamic-routing variants. -/
noncomputable def π_ev (ℓ : Layer) : List ℝ :=
  (List.range ℓ.sinks.length).map
    (fun i => if i = argmaxIdx ℓ.rx then (1 : ℝ) else 0)

mutual

/-- Well-formedness mirroring how the Python code constructs the graph: at
every node with at least two sinks the router output row has exactly one
column per sink. -/
def wf : Layer → Bool
  | .mk _ _ rx _ sinks =>
      (decide (sinks.length < 2) || decide (rx.length = sinks.length)) &&
        wfL sinks

/-- Conjunction of `wf` over a list of layers. -/
def wfL : List Layer → Bool
  | [] => true
  | s :: ss => wf s && wfL ss

end

mutual

/-- Expected realized cost under the evaluation policy, as aggregated by
`route_sinks_ac_stat` / `route_sinks_cr_stat` (fewer than two sinks: plain
sum over sinks) and `route_sinks_ac_dyn` / `route_sinks_cr_dyn` (at least two
sinks: `π_ev`-weighted sum over sinks, with the router operation count added
to the compute penalty).  The actor and cost-regression variants contain this
aggregation verbatim. -/
noncomputable def c_ev (k : ℝ) : Layer → ℝ
  | .mk ce no rx rno sinks =>
      if sinks.length < 2
        then ce + k * no + c_evSum k sinks
        else ce + k * (no + rno) + c_evDot k (argmaxIdx rx) 0 sinks

/-- Sum `sum(s.c_ev for s in ℓ.sinks)`. -/
noncomputable def c_evSum (k : ℝ) : List Layer → ℝ
  | [] => 0
  | s :: ss => c_ev k s + c_evSum k ss

/-- Weighted sum `sum(π_ev[:, i] * s.c_ev for i, s in enumerate(ℓ.sinks))`, with
`π_ev[:, i] = 1` exactly when `i` is the arg-max index `j`; `i` counts the
position of the current sink. -/
noncomputable def c_evDot (k : ℝ) (j i : ℕ) : List Layer → ℝ
  | [] => 0
  | s :: ss => (if i = j then (1 : ℝ) else 0) * c_ev k s + c_evDot k j (i + 1) ss

/-- Oracle best-case cost, as aggregated by the `stat` (plain sum) and `dyn`
(`reduce(tf.minimum, ...)` over sinks) routing of the actor and
cost-regression variants. -/
noncomputable def c_opt (k : ℝ) : Layer → ℝ
  | .mk ce no _ rno sinks =>
      if sinks.length < 2
        then ce + k * no + c_optSum k sinks
        else ce + k * (no + rno) + c_optMin k sinks

/-- Sum `sum(s.c_opt for s in ℓ.sinks)`. -/
noncomputable def c_optSum (k : ℝ) : List Layer → ℝ
  | [] => 0
  | s :: ss => c_opt k s + c_optSum k ss

/-- Minimum `reduce(tf.minimum, (s.c_opt for s in ℓ.sinks))`: left fold of the
binary minimum, seeded with the first sink's `c_opt`. -/
noncomputable def c_optMin (k : ℝ) : List Layer → ℝ
  | [] => 0
  | s :: ss => c_optMinAcc k (c_opt k s) ss

/-- Accumulator form of the `reduce(tf.minimum, ...)` fold. -/
noncomputable def c_optMinAcc (k acc : ℝ) : List Layer → ℝ
  | [] => acc
  | s :: ss => c_optMinAcc k (min acc (c_opt k s)) ss

end

/-- Per-branch regression target of the cost-regression and actor routers:
the sink's `c_opt` in optimistic mode, its `c_ev` otherwise.  The
`tf.stop_gradient` wrapper is the identity on values. -/
noncomputable def cr_target (k : ℝ) (optimistic : Bool) (s : Layer) : ℝ :=
  if optimistic then c_opt k s else c_ev k s

/-- Auxiliary cost-regression loss of `route_sinks_cr_dyn`:
`k_cre * sum(tf.square(ℓ.router.x[:, i] + tf.stop_gradient(
s.c_opt if opts.optimistic else s.c_ev)) for i, s in enumerate(ℓ.sinks))`;
`route_sinks_cr_stat` sets it to `0`. -/
noncomputable def c_cre (k_cpt k_cre : ℝ) (optimistic : Bool) (ℓ : Layer) : ℝ :=
  if ℓ.sinks.length < 2 then 0
  else k_cre *
    (List.zipWith (fun xi s => (xi + cr_target k_cpt optimistic s) ^ 2)
      ℓ.rx ℓ.sinks).sum

/-- The loss the specification's words describe for the cost-regression
router: `k_cre` times the squared error between the router's per-branch cost
prediction and the realized downstream cost of that branch.  Kept only to be
compared with the source-derived `c_cre`. -/
noncomputable def c_cre_spec (k_cpt k_cre : ℝ) (optimistic : Bool) (ℓ : Layer) : ℝ :=
  if ℓ.sinks.length < 2 then 0
  else k_cre *
    (List.zipWith (fun xi s => (xi - cr_target k_cpt optimistic s) ^ 2)
      ℓ.rx ℓ.sinks).sum

/-- The evaluation policy the specification's words describe for the
cost-regression variant: a one-hot indicator of the arg-min of the router's
per-branch predictions.  Kept only to be compared with the source-derived
`π_ev`. -/
noncomputable def π_ev_spec (ℓ : Layer) : List ℝ :=
  (List.range ℓ.sinks.length).map
    (fun i => if i = argminIdx ℓ.rx then (1 : ℝ) else 0)

/-- Actor auxiliary loss of `route_sinks_ac_dyn`:
`k_rtr * sum(π_tr[:, i] * tf.stop_gradient(s.c_opt if opts.optimistic else
s.c_ev) for i, s in enumerate(ℓ.sinks))`; `route_sinks_ac_stat` sets it
to `0`. -/
noncomputable def c_rtr (ε τ k_cpt k_rtr : ℝ) (optimistic : Bool) (ℓ : Layer) : ℝ :=
  if ℓ.sinks.length < 2 then 0
  else k_rtr *
    (List.zipWith (fun p s => p * cr_target k_cpt optimistic s)
      (π_tr ε τ ℓ) ℓ.sinks).sum

mutual

/-- The visitation probabilities `p_tr` assigned to the nodes of the tree by
the recursive routing (`route_ds` / `route_ac` / `route_cr`): the node's
incoming probability, followed by the probabilities of its descendants.
Static nodes (fewer than two sinks) pass the mass through unchanged; dynamic
nodes scale it by their `π_tr` entry for each sink. -/
noncomputable def probs (ε τ p : ℝ) : Layer → List ℝ
  | .mk ce no rx rno sinks =>
      if sinks.length < 2
        then p :: probsL ε τ p sinks
        else p :: probsDyn ε τ p
          (π_tr ε τ (Layer.mk ce no rx rno sinks)) sinks

/-- Pass-through recursion of `route_sinks_*_stat`. -/
noncomputable def probsL (ε τ p : ℝ) : List Layer → List ℝ
  | [] => []
  | s :: ss => probs ε τ p s ++ probsL ε τ p ss

/-- Scaled recursion of `route_sinks_*_dyn`: sink `i` receives
`p * π_tr[:, i]`. -/
noncomputable def probsDyn (ε τ p : ℝ) : List ℝ → List Layer → List ℝ
  | _, [] => []
  | [], _ :: _ => []
  | w :: ws, s :: ss => probs ε τ (p * w) s ++ probsDyn ε τ p ws ss

end

/-- The batch loss statistic of `add_error_mapping`:
`μ_batch = tf.reduce_sum(ℓ.p_tr * ℓ.c_err) / tf.reduce_sum(ℓ.p_tr)` over the
minibatch, with `none` marking the NaN/Inf produced by a zero denominator
(the division carries no guard in the source). -/
noncomputable def μ_batch (ps cs : List ℝ) : Option ℝ :=
  if (ps.sum = 0) then none
  else some ((List.zipWith (fun p c => p * c) ps cs).sum / ps.sum)

/-! ### Error-mapping state machine (`add_error_mapping`) -/

/-- The four persistent non-trainable scalars created per node by
`add_error_mapping`. -/
structure EMState where
  μ_tr : ℝ
  μ_vl : ℝ
  d_tr : ℝ
  d_vl : ℝ

/-- All four variables are initialized to `0.0`. -/
def emInit : EMState := ⟨0, 0, 0, 0⟩

/-- Update `ℓ.update_μ_tr`: `μ_tr ← λ·μ_tr + (1-λ)·μ_batch` and
`d_tr ← λ·d_tr + 1 - λ`, with `b` the current batch statistic `μ_batch`. -/
def update_μ_tr (lam b : ℝ) (s : EMState) : EMState :=
  { s with μ_tr := lam * s.μ_tr + (1 - lam) * b,
           d_tr := lam * s.d_tr + (1 - lam) }

/-- Update `ℓ.update_μ_vl`: the same blend on the validation pair. -/
def update_μ_vl (lam b : ℝ) (s : EMState) : EMState :=
  { s with μ_vl := lam * s.μ_vl + (1 - lam) * b,
           d_vl := lam * s.d_vl + (1 - lam) }

/-- One invocation of either update operation, tagged with the batch
statistic it observes. -/
inductive EMStep : Type where
  | tr (b : ℝ) : EMStep
  | vl (b : ℝ) : EMStep

/-- Run a sequence of update operations against a state. -/
def runEM (lam : ℝ) : List EMStep → EMState → EMState
  | [], s => s
  | .tr b :: rest, s => runEM lam rest (update_μ_tr lam b s)
  | .vl b :: rest, s => runEM lam rest (update_μ_vl lam b s)

/-- Number of `update_μ_tr` invocations in a step sequence. -/
def countTr : List EMStep → ℕ
  | [] => 0
  | .tr _ :: rest => countTr rest + 1
  | .vl _ :: rest => countTr rest

/-- Number of `update_μ_vl` invocations in a step sequence. -/
def countVl : List EMStep → ℕ
  | [] => 0
  | .tr _ :: rest => countVl rest
  | .vl _ :: rest => countVl rest + 1

/-- Iterated `update_μ_tr`: `n` applications with the constant batch statistic `L`,
starting from the freshly initialized state. -/
def iterTr (lam L : ℝ) (n : ℕ) : EMState :=
  runEM lam (List.replicate n (EMStep.tr L)) emInit

/-- Corrected loss `ℓ.c_err_cor = tf.cond(ℓ.d_tr * ℓ.d_vl > 0,
lambda: ℓ.c_err - ℓ.μ_tr / ℓ.d_tr + ℓ.μ_vl / ℓ.d_vl, lambda: ℓ.c_err)`. -/
noncomputable def c_err_cor (c : ℝ) (s : EMState) : ℝ :=
  if s.d_tr * s.d_vl > 0 then c - s.μ_tr / s.d_tr + s.μ_vl / s.d_vl else c

/-! ### Gradient-scaling optimizer wrapper (`minimize_expected`) -/

/-- The per-layer data `minimize_expected` consumes: the minibatch of
visitation probabilities `p_tr`, the identifiers of the parameters collected
by `params_list_rec(ℓ)`, and those collected by
`params_list_rec(ℓ.router)`. -/
structure OptLayer where
  p_tr : List ℝ
  own : List ℕ
  rtr : List ℕ

/-- Batch mean `tf.reduce_mean(tf.square(p))` over the minibatch. -/
noncomputable def meanSq (p : List ℝ) : ℝ :=
  (p.map (fun a => a * a)).sum / (p.length : ℝ)

/-- The `lr_scales` dictionary: one entry per layer parameter with scale
`1 / tf.sqrt(tf.reduce_mean(tf.square(ℓ.p_tr)))`, then one entry per router
parameter with scale `α_rtr / tf.sqrt(...)`; a later entry for the same key
overrides an earlier one, as in a Python dict merge. -/
noncomputable def lrEntries (net : List OptLayer) (α_rtr : ℝ) : List (ℕ × ℝ) :=
  (net.map (fun ℓ =>
    ℓ.own.map (fun θ => (θ, 1 / Real.sqrt (meanSq ℓ.p_tr))))).flatten ++
  (net.map (fun ℓ =>
    ℓ.rtr.map (fun θ => (θ, α_rtr / Real.sqrt (meanSq ℓ.p_tr))))).flatten

/-- Dictionary lookup where the last binding for a key wins. -/
def lookupLast (θ : ℕ) : List (ℕ × ℝ) → Option ℝ
  | [] => none
  | (k, v) :: rest =>
      match lookupLast θ rest with
      | some r => some r
      | none => if k = θ then some v else none

/-- The gradient list after `minimize_expected` rescales it:
`[(lr_scales[θ] * g, θ) for g, θ in grads if g is not None]`.  Pairs with a
`none` gradient are skipped; a key the dictionary misses would raise in
Python and yields no entry here. -/
noncomputable def scaledGrads (net : List OptLayer) (α_rtr : ℝ)
    (grads : List (Option ℝ × ℕ)) : List (ℝ × ℕ) :=
  grads.filterMap (fun gθ =>
    match gθ with
    | (none, _) => none
    | (some g, θ) =>
        (lookupLast θ (lrEntries net α_rtr)).map (fun sc => (sc * g, θ)))

/-! ### Dual numbers: a forward-mode model of `tf.stop_gradient` -/

/-- A scalar paired with its derivative along one fixed parameter
direction. -/
structure Dual where
  v : ℝ
  d : ℝ

/-- Dual addition. -/
def Dual.add (a b : Dual) : Dual := ⟨a.v + b.v, a.d + b.d⟩

/-- Dual multiplication (product rule). -/
def Dual.mul (a b : Dual) : Dual := ⟨a.v * b.v, a.v * b.d + a.d * b.v⟩

/-- Model of `tf.stop_gradient`: the identity on the value, zero derivative. -/
def Dual.sg (a : Dual) : Dual := ⟨a.v, 0⟩

/-- Squaring `tf.square` on duals. -/
def Dual.sq (a : Dual) : Dual := a.mul a

/-- The `c_cre` expression of `route_sinks_cr_dyn` on dual numbers, taking
the router's output row `rx` and the per-branch regression targets `ts`
(already aggregated children costs) as inputs:
`k_cre * sum(square(rx[i] + stop_gradient(ts[i])))`. -/
def c_creD (k : Dual) (rx ts : List Dual) : Dual :=
  k.mul ((List.zipWith (fun x t => Dual.sq (x.add (Dual.sg t))) rx ts).foldr
    Dual.add ⟨0, 0⟩)

/-! ### Basic lemmas -/

theorem n_leavesL_eq_sum (ss : List Layer) :
    n_leavesL ss = (ss.map n_leaves).sum := by
  induction ss with
  | nil => simp [n_leavesL]
  | cons s ss ih => simp [n_leavesL, ih]

theorem n_leaves_eq_sum (ce no : ℝ) (rx : List ℝ) (rno : ℝ)
    (sinks : List Layer) (h : sinks ≠ []) :
    n_leaves (Layer.mk ce no rx rno sinks) = (sinks.map n_leaves).sum := by
  cases sinks with
  | nil => exact absurd rfl h
  | cons s ss => simp [n_leaves, n_leavesL_eq_sum]

theorem n_leaves_pos : ∀ ℓ : Layer, 1 ≤ n_leaves ℓ := by
  intro ℓ
  induction ℓ using Layer.ind with
  | h ce no rx rno sinks ih =>
    cases sinks with
    | nil => simp [n_leaves]
    | cons s ss =>
      have hs : 1 ≤ n_leaves s := ih s (by simp)
      simp only [n_leaves]
      omega

theorem sum_map_div {α : Type} (f : α → ℝ) (c : ℝ) (l : List α) :
    (l.map (fun x => f x / c)).sum = (l.map f).sum / c := by
  induction l with
  | nil => simp
  | cons x xs ih => simp [ih, add_div]

theorem sum_div_each (c : ℝ) (l : List ℝ) :
    (l.map (fun e => e / c)).sum = l.sum / c := by
  induction l with
  | nil => simp
  | cons x xs ih => simp [ih, add_div]

theorem sum_map_natCast (l : List Layer) :
    (l.map (fun s => (n_leaves s : ℝ))).sum = (n_leavesL l : ℝ) := by
  induction l with
  | nil => simp [n_leavesL]
  | cons s ss ih => simp [n_leavesL, ih]

/-- The structural prior is a probability distribution: nonnegative entries
summing to one whenever the node has at least one sink. -/
theorem w_struct_sum (ce no : ℝ) (rx : List ℝ) (rno : ℝ)
    (sinks : List Layer) (h : sinks ≠ []) :
    (w_struct (Layer.mk ce no rx rno sinks)).sum = 1 := by
  have hlen : n_leaves (Layer.mk ce no rx rno sinks) = n_leavesL sinks := by
    cases sinks with
    | nil => exact absurd rfl h
    | cons s ss => simp [n_leaves, n_leavesL]
  have hpos : 0 < n_leavesL sinks := by
    cases sinks with
    | nil => exact absurd rfl h
    | cons s ss =>
      have := n_leaves_pos s
      simp only [n_leavesL]
      omega
  simp only [w_struct, Layer.sinks, hlen]
  rw [sum_map_div, sum_map_natCast]
  rw [div_self]
  exact_mod_cast hpos.ne'

theorem w_struct_entry_nonneg (ℓ : Layer) :
    ∀ x ∈ w_struct ℓ, 0 ≤ x := by
  intro x hx
  simp only [w_struct, List.mem_map] at hx
  obtain ⟨t, _, rfl⟩ := hx
  have h1 : (0 : ℝ) ≤ (n_leaves t : ℝ) := by positivity
  have h2 : (0 : ℝ) ≤ (n_leaves ℓ : ℝ) := by positivity
  exact div_nonneg h1 h2

theorem w_struct_pos (ℓ : Layer) : ∀ x ∈ w_struct ℓ, 0 < x := by
  intro x hx
  simp only [w_struct, List.mem_map] at hx
  obtain ⟨t, _, rfl⟩ := hx
  have h1 : (0 : ℝ) < (n_leaves t : ℝ) := by
    exact_mod_cast Nat.lt_of_lt_of_le Nat.zero_lt_one (n_leaves_pos t)
  have h2 : (0 : ℝ) < (n_leaves ℓ : ℝ) := by
    exact_mod_cast Nat.lt_of_lt_of_le Nat.zero_lt_one (n_leaves_pos ℓ)
  exact div_pos h1 h2

theorem w_struct_length (ℓ : Layer) :
    (w_struct ℓ).length = ℓ.sinks.length := by
  simp [w_struct]

/-! ### Softmax lemmas -/

theorem exp_sum_pos (τ : ℝ) (z : List ℝ) (hz : z ≠ []) :
    0 < (z.map (fun a => Real.exp (a / τ))).sum := by
  cases z with
  | nil => exact absurd rfl hz
  | cons a as =>
    simp only [List.map_cons, List.sum_cons]
    have h1 : 0 < Real.exp (a / τ) := Real.exp_pos _
    have h2 : 0 ≤ (as.map (fun a => Real.exp (a / τ))).sum :=
      List.sum_nonneg (by
        intro x hx
        simp only [List.mem_map] at hx
        obtain ⟨b, _, rfl⟩ := hx
        exact (Real.exp_pos _).le)
    linarith

theorem softmaxRow_length (τ : ℝ) (z : List ℝ) :
    (softmaxRow τ z).length = z.length := by
  simp [softmaxRow]

theorem softmaxRow_sum (τ : ℝ) (z : List ℝ) (hz : z ≠ []) :
    (softmaxRow τ z).sum = 1 := by
  unfold softmaxRow
  rw [sum_div_each]
  exact div_self (exp_sum_pos τ z hz).ne'

theorem softmaxRow_pos (τ : ℝ) (z : List ℝ) (hz : z ≠ []) :
    ∀ x ∈ softmaxRow τ z, 0 < x := by
  intro x hx
  simp only [softmaxRow, List.map_map, List.mem_map] at hx
  obtain ⟨a, _, rfl⟩ := hx
  exact div_pos (Real.exp_pos _) (exp_sum_pos τ z hz)

/-! ### Arg-max lemmas (first-match semantics of `tf.argmax`) -/

theorem listMax_cons (x : ℝ) (xs : List ℝ) (h : xs ≠ []) :
    listMax (x :: xs) = max x (listMax xs) := by
  cases xs with
  | nil => exact absurd rfl h
  | cons y t => simp [listMax]

theorem le_listMax : ∀ (z : List ℝ), ∀ x ∈ z, x ≤ listMax z := by
  intro z
  induction z with
  | nil => intro x hx; simp at hx
  | cons a as ih =>
    intro x hx
    cases as with
    | nil =>
      simp only [List.mem_singleton] at hx
      simp [listMax, hx]
    | cons b t =>
      rw [listMax_cons a _ (by simp)]
      rcases List.mem_cons.mp hx with rfl | hx2
      · exact le_max_left _ _
      · exact le_trans (ih x hx2) (le_max_right _ _)

theorem argmaxIdx_lt : ∀ (z : List ℝ), z ≠ [] → argmaxIdx z < z.length := by
  intro z
  induction z with
  | nil => intro h; exact absurd rfl h
  | cons a as ih =>
    intro _
    cases as with
    | nil => simp [argmaxIdx]
    | cons b t =>
      by_cases h : listMax (b :: t) ≤ a
      · simp [argmaxIdx, h]
      · have h2 := ih (by simp)
        simp only [List.length_cons] at h2
        simp only [argmaxIdx, if_neg h, List.length_cons]
        omega

theorem getD_argmaxIdx : ∀ (z : List ℝ), z ≠ [] →
    z.getD (argmaxIdx z) 0 = listMax z := by
  intro z
  induction z with
  | nil => intro h; exact absurd rfl h
  | cons a as ih =>
    intro _
    cases as with
    | nil => simp [argmaxIdx, listMax]
    | cons b t =>
      rw [listMax_cons a _ (by simp)]
      by_cases h : listMax (b :: t) ≤ a
      · simp only [argmaxIdx, if_pos h, List.getD_cons_zero]
        exact (max_eq_left h).symm
      · push_neg at h
        simp only [argmaxIdx, if_neg (not_le.mpr h), List.getD_cons_succ]
        rw [ih (by simp)]
        exact (max_eq_right h.le).symm

theorem getD_lt_argmax : ∀ (z : List ℝ), ∀ j < argmaxIdx z,
    z.getD j 0 < z.getD (argmaxIdx z) 0 := by
  intro z
  induction z with
  | nil => intro j hj; simp [argmaxIdx] at hj
  | cons a as ih =>
    intro j hj
    cases as with
    | nil => simp [argmaxIdx] at hj
    | cons b t =>
      by_cases h : listMax (b :: t) ≤ a
      · simp [argmaxIdx, if_pos h] at hj
      · push_neg at h
        simp only [argmaxIdx, if_neg (not_le.mpr h)] at hj ⊢
        rw [List.getD_cons_succ, getD_argmaxIdx (b :: t) (by simp)]
        cases j with
        | zero => simpa using h
        | succ j =>
          rw [List.getD_cons_succ]
          have hj2 : j < argmaxIdx (b :: t) := by omega
          have := ih j hj2
          rwa [getD_argmaxIdx (b :: t) (by simp)] at this

theorem getD_le_argmax : ∀ (z : List ℝ), ∀ j < z.length,
    z.getD j 0 ≤ z.getD (argmaxIdx z) 0 := by
  intro z j hj
  have hz : z ≠ [] := by
    intro h
    rw [h] at hj
    simp at hj
  rw [getD_argmaxIdx z hz]
  have hmem : z.getD j 0 ∈ z := by
    rw [List.getD_eq_getElem z 0 hj]
    exact List.getElem_mem hj
  exact le_listMax z _ hmem

/-- Sum of the one-hot indicator row produced by comparing `tf.range n`
against a fixed index. -/
theorem sum_range_indicator (n j : ℕ) :
    ((List.range n).map (fun i => if i = j then (1 : ℝ) else 0)).sum
      = if j < n then 1 else 0 := by
  induction n with
  | zero => simp
  | succ n ih =>
    rw [List.range_succ, List.map_append, List.sum_append, ih]
    rcases lt_trichotomy j n with h | h | h
    · have h1 : j < n + 1 := by omega
      have h2 : n ≠ j := by omega
      simp [if_pos h, if_pos h1, if_neg h2]
    · subst h
      simp
    · have h1 : ¬ j < n := by omega
      have h2 : ¬ j < n + 1 := by omega
      have h3 : n ≠ j := by omega
      simp [if_neg h1, if_neg h2, if_neg h3]

theorem sum_zipWith_blend (c d : ℝ) :
    ∀ (a b : List ℝ), a.length = b.length →
      (List.zipWith (fun p w => c * p + d * w) a b).sum = c * a.sum + d * b.sum
  | [], [], _ => by simp
  | [], w :: ws, h => by simp at h
  | p :: ps, [], h => by simp at h
  | p :: ps, w :: ws, h => by
      have ih := sum_zipWith_blend c d ps ws (by simpa using h)
      simp only [List.zipWith_cons_cons, List.sum_cons, ih]
      ring

/-! ### Policy lemmas -/

theorem w_struct_sum_of_ne (ℓ : Layer) (h : ℓ.sinks ≠ []) :
    (w_struct ℓ).sum = 1 := by
  cases ℓ with
  | mk ce no rx rno sinks =>
    exact w_struct_sum ce no rx rno sinks (by simpa [Layer.sinks] using h)

theorem pi_tr_length (ε τ : ℝ) (ℓ : Layer)
    (hlen : ℓ.rx.length = ℓ.sinks.length) :
    (π_tr ε τ ℓ).length = ℓ.sinks.length := by
  simp [π_tr, List.length_zipWith, softmaxRow_length, w_struct_length, hlen]

theorem pi_tr_sum (ε τ : ℝ) (ℓ : Layer) (hs : ℓ.sinks ≠ [])
    (hlen : ℓ.rx.length = ℓ.sinks.length) :
    (π_tr ε τ ℓ).sum = 1 := by
  have hrx : ℓ.rx ≠ [] := by
    intro h
    rw [h] at hlen
    exact hs (List.eq_nil_of_length_eq_zero hlen.symm)
  unfold π_tr
  rw [sum_zipWith_blend _ _ _ _
    (by rw [softmaxRow_length, w_struct_length]; exact hlen)]
  rw [softmaxRow_sum τ ℓ.rx hrx, w_struct_sum_of_ne ℓ hs]
  ring

theorem pi_tr_entry_ge (ε τ : ℝ) (ℓ : Layer) (_hε0 : 0 ≤ ε) (hε1 : ε ≤ 1)
    (hlen : ℓ.rx.length = ℓ.sinks.length) (i : ℕ) (hi : i < ℓ.sinks.length) :
    ε * ((n_leaves (ℓ.sinks.get ⟨i, hi⟩) : ℝ) / (n_leaves ℓ : ℝ))
      ≤ (π_tr ε τ ℓ).getD i 0 := by
  have hrxlen : 0 < ℓ.rx.length := by omega
  have hrx : ℓ.rx ≠ [] := by
    intro h
    rw [h] at hrxlen
    simp at hrxlen
  have hπ : i < (π_tr ε τ ℓ).length := by
    rw [pi_tr_length ε τ ℓ hlen]
    exact hi
  have hi1 : i < (softmaxRow τ ℓ.rx).length := by
    rw [softmaxRow_length]
    omega
  have hi2 : i < (w_struct ℓ).length := by
    rw [w_struct_length]
    exact hi
  have hval : (π_tr ε τ ℓ).getD i 0 =
      (1 - ε) * (softmaxRow τ ℓ.rx).getD i 0 +
        ε * (w_struct ℓ).getD i 0 := by
    rw [List.getD_eq_getElem _ 0 hπ, List.getD_eq_getElem _ 0 hi1,
      List.getD_eq_getElem _ 0 hi2]
    simp only [π_tr, List.getElem_zipWith]
  rw [hval]
  have hsm : 0 < (softmaxRow τ ℓ.rx).getD i 0 := by
    rw [List.getD_eq_getElem _ 0 hi1]
    exact softmaxRow_pos τ ℓ.rx hrx _ (List.getElem_mem hi1)
  have hw : (w_struct ℓ).getD i 0 =
      (n_leaves (ℓ.sinks.get ⟨i, hi⟩) : ℝ) / (n_leaves ℓ : ℝ) := by
    rw [List.getD_eq_getElem _ 0 hi2]
    simp only [w_struct, List.getElem_map, List.get_eq_getElem]
  rw [hw]
  have h1 : 0 ≤ (1 - ε) * (softmaxRow τ ℓ.rx).getD i 0 :=
    mul_nonneg (by linarith) hsm.le
  linarith

theorem blend_pos {ε p w : ℝ} (hε0 : 0 ≤ ε) (hε1 : ε ≤ 1) (hp : 0 < p)
    (hw : 0 < w) : 0 < (1 - ε) * p + ε * w := by
  rcases eq_or_lt_of_le hε1 with h | h
  · subst h
    simpa using hw
  · have h1 : 0 < (1 - ε) * p := mul_pos (by linarith) hp
    have h2 : 0 ≤ ε * w := mul_nonneg hε0 hw.le
    linarith

theorem mem_zipWith_blend {c d : ℝ} : ∀ (a b : List ℝ) (x : ℝ),
    x ∈ List.zipWith (fun p w => c * p + d * w) a b →
    ∃ p ∈ a, ∃ w ∈ b, x = c * p + d * w
  | [], _, x, h => by simp at h
  | _ :: _, [], x, h => by simp at h
  | p :: ps, w :: ws, x, h => by
      simp only [List.zipWith_cons_cons, List.mem_cons] at h
      rcases h with rfl | h
      · exact ⟨p, by simp, w, by simp, rfl⟩
      · obtain ⟨p2, hp2, w2, hw2, rfl⟩ := mem_zipWith_blend ps ws _ h
        exact ⟨p2, by simp [hp2], w2, by simp [hw2], rfl⟩

theorem pi_tr_mem_pos (ε τ : ℝ) (ℓ : Layer) (hε0 : 0 ≤ ε) (hε1 : ε ≤ 1)
    (hrx : ℓ.rx ≠ []) : ∀ x ∈ π_tr ε τ ℓ, 0 < x := by
  intro x hx
  unfold π_tr at hx
  obtain ⟨p, hp, w, hw, rfl⟩ := mem_zipWith_blend _ _ _ hx
  exact blend_pos hε0 hε1 (softmaxRow_pos τ ℓ.rx hrx p hp)
    (w_struct_pos ℓ w hw)

theorem pi_ev_length (ℓ : Layer) : (π_ev ℓ).length = ℓ.sinks.length := by
  simp [π_ev]

theorem pi_ev_getD (ℓ : Layer) (i : ℕ) (hi : i < ℓ.sinks.length) :
    (π_ev ℓ).getD i 0 = if i = argmaxIdx ℓ.rx then 1 else 0 := by
  have h1 : i < (π_ev ℓ).length := by
    rw [pi_ev_length]
    exact hi
  rw [List.getD_eq_getElem _ 0 h1]
  simp only [π_ev, List.getElem_map, List.getElem_range]

theorem pi_ev_sum (ℓ : Layer) (hlt : argmaxIdx ℓ.rx < ℓ.sinks.length) :
    (π_ev ℓ).sum = 1 := by
  unfold π_ev
  rw [sum_range_indicator]
  exact if_pos hlt

/-! ### Concrete trees used as witnesses and counterexamples -/

/-- A childless layer with unit local loss. -/
def exLeaf : Layer := Layer.mk 1 0 [] 0 []

/-- A balanced two-sink branching node with router output row `[0, 2]`. -/
def exTree2 : Layer := Layer.mk 0 0 [0, 2] 0 [exLeaf, exLeaf]

/-- A three-sink node over three leaves. -/
def exWide : Layer := Layer.mk 0 0 [0, 0, 0] 0 [exLeaf, exLeaf, exLeaf]

/-- An unbalanced branching node: one leaf on the first sink, three leaves
under the second, so `w_struct = [1/4, 3/4]`. -/
def exUnbal : Layer := Layer.mk 0 0 [0, 2] 0 [exLeaf, exWide]

/-! ### wf lemmas -/

theorem wf_mk (ce no : ℝ) (rx : List ℝ) (rno : ℝ) (sinks : List Layer) :
    wf (Layer.mk ce no rx rno sinks) = true ↔
      (sinks.length < 2 ∨ rx.length = sinks.length) ∧ wfL sinks = true := by
  simp [wf, Bool.and_eq_true, Bool.or_eq_true, decide_eq_true_eq]

theorem wfL_mem {ss : List Layer} (h : wfL ss = true) {s : Layer}
    (hs : s ∈ ss) : wf s = true := by
  induction ss with
  | nil => simp at hs
  | cons t ts ih =>
    simp only [wfL, Bool.and_eq_true] at h
    rcases List.mem_cons.mp hs with rfl | h2
    · exact h.1
    · exact ih h.2 h2

/-! ### Claims C1 and C10 -/

/-- Claim C1: at every node with at least two sinks (its router output row
having one column per sink, as the linker builds it), in every routing
variant — `route_sinks_ds_dyn`, `route_sinks_ac_dyn` and
`route_sinks_cr_dyn` share these policy lines verbatim — and for every
example, the training policy row sums to one, and the evaluation policy row
is exactly one-hot at the arg-max of the router output, ties broken by the
first-match semantics of `tf.argmax`. -/
theorem claim_C1 (ε τ : ℝ) (ℓ : Layer) (h2 : 2 ≤ ℓ.sinks.length)
    (hlen : ℓ.rx.length = ℓ.sinks.length) :
    (π_tr ε τ ℓ).sum = 1 ∧
    (π_ev ℓ).length = ℓ.sinks.length ∧
    (π_ev ℓ).getD (argmaxIdx ℓ.rx) 0 = 1 ∧
    (∀ i < ℓ.sinks.length, i ≠ argmaxIdx ℓ.rx → (π_ev ℓ).getD i 0 = 0) ∧
    (π_ev ℓ).sum = 1 ∧
    argmaxIdx ℓ.rx < ℓ.rx.length ∧
    (∀ j < ℓ.rx.length,
      ℓ.rx.getD j 0 ≤ ℓ.rx.getD (argmaxIdx ℓ.rx) 0) ∧
    (∀ j < argmaxIdx ℓ.rx,
      ℓ.rx.getD j 0 < ℓ.rx.getD (argmaxIdx ℓ.rx) 0) := by
  have hs : ℓ.sinks ≠ [] := by
    intro h
    rw [h] at h2
    simp at h2
  have hrx : ℓ.rx ≠ [] := by
    intro h
    rw [h] at hlen
    exact hs (List.eq_nil_of_length_eq_zero hlen.symm)
  have hargl : argmaxIdx ℓ.rx < ℓ.rx.length := argmaxIdx_lt ℓ.rx hrx
  have hargs : argmaxIdx ℓ.rx < ℓ.sinks.length := by omega
  refine ⟨pi_tr_sum ε τ ℓ hs hlen, pi_ev_length ℓ, ?_, ?_, pi_ev_sum ℓ hargs,
    hargl, getD_le_argmax ℓ.rx, getD_lt_argmax ℓ.rx⟩
  · rw [pi_ev_getD ℓ _ hargs]
    simp
  · intro i hi hne
    rw [pi_ev_getD ℓ i hi]
    exact if_neg hne

/-- Witness for C1 at a concrete two-sink node. -/
theorem claim_C1_witness :
    (π_tr (1 / 2) 1 exTree2).sum = 1 ∧
    (π_ev exTree2).length = exTree2.sinks.length ∧
    (π_ev exTree2).getD (argmaxIdx exTree2.rx) 0 = 1 ∧
    (∀ i < exTree2.sinks.length, i ≠ argmaxIdx exTree2.rx →
      (π_ev exTree2).getD i 0 = 0) ∧
    (π_ev exTree2).sum = 1 ∧
    argmaxIdx exTree2.rx < exTree2.rx.length ∧
    (∀ j < exTree2.rx.length,
      exTree2.rx.getD j 0 ≤ exTree2.rx.getD (argmaxIdx exTree2.rx) 0) ∧
    (∀ j < argmaxIdx exTree2.rx,
      exTree2.rx.getD j 0 < exTree2.rx.getD (argmaxIdx exTree2.rx) 0) :=
  claim_C1 (1 / 2) 1 exTree2 (by simp [exTree2, Layer.sinks])
    (by simp [exTree2, Layer.sinks, Layer.rx])

/-- Claim C10: the leaf count of a node with at least one sink is the sum of
its sinks' leaf counts, and consequently the structural prior `w_struct` is a
probability distribution over the sinks: nonnegative entries summing to
exactly one. -/
theorem claim_C10 (ℓ : Layer) (h : ℓ.sinks ≠ []) :
    n_leaves ℓ = (ℓ.sinks.map n_leaves).sum ∧
    (∀ x ∈ w_struct ℓ, 0 ≤ x) ∧ (w_struct ℓ).sum = 1 := by
  refine ⟨?_, w_struct_entry_nonneg ℓ, w_struct_sum_of_ne ℓ h⟩
  cases ℓ with
  | mk ce no rx rno sinks =>
    simp only [Layer.sinks]
    exact n_leaves_eq_sum ce no rx rno sinks
      (by simpa [Layer.sinks] using h)

/-- Witness for C10 at the unbalanced node. -/
theorem claim_C10_witness :
    n_leaves exUnbal = (exUnbal.sinks.map n_leaves).sum ∧
    (∀ x ∈ w_struct exUnbal, 0 ≤ x) ∧ (w_struct exUnbal).sum = 1 :=
  claim_C10 exUnbal (by simp [exUnbal, Layer.sinks])

/-! ### Claim C2: the oracle cost never exceeds the routed cost -/

theorem c_optMinAcc_le_acc (k : ℝ) :
    ∀ (ss : List Layer) (a : ℝ), c_optMinAcc k a ss ≤ a
  | [], a => le_refl a
  | s :: ss, a => by
      simp only [c_optMinAcc]
      exact le_trans (c_optMinAcc_le_acc k ss _) (min_le_left _ _)

theorem c_optMinAcc_le_mem (k : ℝ) :
    ∀ (ss : List Layer) (a : ℝ) (s : Layer), s ∈ ss →
      c_optMinAcc k a ss ≤ c_opt k s
  | [], a, s, h => by simp at h
  | t :: ts, a, s, h => by
      simp only [c_optMinAcc]
      rcases List.mem_cons.mp h with rfl | h2
      · exact le_trans (c_optMinAcc_le_acc k ts _) (min_le_right _ _)
      · exact c_optMinAcc_le_mem k ts _ s h2

theorem c_optMin_le_mem (k : ℝ) (ss : List Layer) (s : Layer) (h : s ∈ ss) :
    c_optMin k ss ≤ c_opt k s := by
  cases ss with
  | nil => simp at h
  | cons t ts =>
    rcases List.mem_cons.mp h with rfl | h2
    · simpa [c_optMin] using c_optMinAcc_le_acc k ts (c_opt k s)
    · simpa [c_optMin] using c_optMinAcc_le_mem k ts (c_opt k t) s h2

theorem c_evDot_eq_zero (k : ℝ) :
    ∀ (ss : List Layer) (i j : ℕ), j < i → c_evDot k j i ss = 0
  | [], _, _, _ => rfl
  | s :: ts, i, j, h => by
      simp only [c_evDot]
      rw [if_neg (by omega), c_evDot_eq_zero k ts (i + 1) j (by omega)]
      ring

theorem c_evDot_shift (k : ℝ) :
    ∀ (ss : List Layer) (i j : ℕ) (h : j < ss.length),
      c_evDot k (i + j) i ss = c_ev k (ss.get ⟨j, h⟩)
  | [], _, _, h => by simp at h
  | s :: ts, i, 0, _ => by
      simp only [c_evDot]
      rw [if_pos (by omega), c_evDot_eq_zero k ts (i + 1) (i + 0) (by omega)]
      simp
  | s :: ts, i, j + 1, h => by
      simp only [c_evDot]
      rw [if_neg (by omega)]
      have h2 : j < ts.length := by
        simp only [List.length_cons] at h
        omega
      have h3 : i + (j + 1) = (i + 1) + j := by omega
      rw [h3, c_evDot_shift k ts (i + 1) j h2]
      simp

theorem c_evDot_eq_get (k : ℝ) (ss : List Layer) (j : ℕ)
    (h : j < ss.length) :
    c_evDot k j 0 ss = c_ev k (ss.get ⟨j, h⟩) := by
  have := c_evDot_shift k ss 0 j h
  simpa using this

theorem c_optSum_le_c_evSum (k : ℝ) :
    ∀ (ss : List Layer), (∀ s ∈ ss, c_opt k s ≤ c_ev k s) →
      c_optSum k ss ≤ c_evSum k ss
  | [], _ => le_refl 0
  | s :: ts, h => by
      simp only [c_optSum, c_evSum]
      have h1 := h s (by simp)
      have h2 := c_optSum_le_c_evSum k ts (fun t ht => h t (by simp [ht]))
      linarith

theorem c_opt_le_c_ev (k : ℝ) : ∀ (ℓ : Layer), wf ℓ = true →
    c_opt k ℓ ≤ c_ev k ℓ := by
  intro ℓ
  induction ℓ using Layer.ind with
  | h ce no rx rno sinks ih =>
    intro hwf
    obtain ⟨hdyn, hsinks⟩ := (wf_mk ce no rx rno sinks).mp hwf
    have ihwf : ∀ s ∈ sinks, c_opt k s ≤ c_ev k s := fun s hs =>
      ih s hs (wfL_mem hsinks hs)
    by_cases hlt : sinks.length < 2
    · simp only [c_opt, c_ev, if_pos hlt]
      have := c_optSum_le_c_evSum k sinks ihwf
      linarith
    · simp only [c_opt, c_ev, if_neg hlt]
      have hlen : rx.length = sinks.length := by
        rcases hdyn with h | h
        · exact absurd h hlt
        · exact h
      have hrx : rx ≠ [] := by
        intro h0
        rw [h0] at hlen
        simp at hlen
        omega
      have hj : argmaxIdx rx < sinks.length := by
        rw [← hlen]
        exact argmaxIdx_lt rx hrx
      rw [c_evDot_eq_get k sinks (argmaxIdx rx) hj]
      have h2 : c_optMin k sinks ≤ c_opt k (sinks.get ⟨argmaxIdx rx, hj⟩) :=
        c_optMin_le_mem k sinks _ (List.get_mem sinks (argmaxIdx rx) hj)
      have h3 := ihwf (sinks.get ⟨argmaxIdx rx, hj⟩)
        (List.get_mem sinks (argmaxIdx rx) hj)
      linarith

/-- Claim C2: in the cost-regression and actor variants (which aggregate
`c_ev` and `c_opt` with identical code), the oracle best-case cost of every
well-formed node never exceeds the routed expected cost under the evaluation
policy. -/
theorem claim_C2 (k_cpt : ℝ) (ℓ : Layer) (h : wf ℓ = true) :
    c_opt k_cpt ℓ ≤ c_ev k_cpt ℓ :=
  c_opt_le_c_ev k_cpt ℓ h

/-- Witness for C2 at a concrete two-level tree with compute penalty 1. -/
theorem claim_C2_witness : c_opt 1 exUnbal ≤ c_ev 1 exUnbal :=
  claim_C2 1 exUnbal (by simp [wf, wfL, exUnbal, exWide, exLeaf])

/-! ### Claim C3: the exploration floor -/

theorem exp_two_gt_three : (3 : ℝ) < Real.exp 2 := by
  have h := Real.add_one_lt_exp (x := (2 : ℝ)) (by norm_num)
  linarith

/-- Counterexample to C3 as stated: at a two-sink node whose subtrees hold
one and three leaves (`w_struct = [1/4, 3/4]`), with `ε = 1/2 ∈ (0,1)`,
`τ = 1` and router output `[0, 2]`, the first training-policy entry falls
strictly below the claimed uniform floor `ε / n_sinks = 1/4`. -/
theorem claim_C3_counterexample :
    (0 : ℝ) < 1 / 2 ∧ (1 / 2 : ℝ) < 1 ∧
      (π_tr (1 / 2) 1 exUnbal).getD 0 0
        < (1 / 2) / (exUnbal.sinks.length : ℝ) := by
  refine ⟨by norm_num, by norm_num, ?_⟩
  have hrx : exUnbal.rx = [0, 2] := by simp [exUnbal, Layer.rx]
  have hw : w_struct exUnbal = [1 / 4, 3 / 4] := by
    simp [w_struct, exUnbal, exWide, exLeaf, Layer.sinks, n_leaves, n_leavesL]
  have hsm : softmaxRow 1 exUnbal.rx =
      [1 / (1 + Real.exp 2), Real.exp 2 / (1 + Real.exp 2)] := by
    rw [hrx]
    simp [softmaxRow, Real.exp_zero]
  have hval : (π_tr (1 / 2) 1 exUnbal).getD 0 0
      = (1 - 1 / 2) * (1 / (1 + Real.exp 2)) + (1 / 2) * (1 / 4) := by
    unfold π_tr
    rw [hsm, hw]
    norm_num
  have hlen : (exUnbal.sinks.length : ℝ) = 2 := by
    simp [exUnbal, Layer.sinks]
  rw [hval, hlen]
  have hexp := exp_two_gt_three
  have hpos : (0 : ℝ) < 1 + Real.exp 2 := by positivity
  have hfr : 1 / (1 + Real.exp 2) < 1 / 4 := by
    rw [div_lt_div_iff₀ hpos (by norm_num)]
    linarith
  linarith

/-- Claim C3, amended: in the decision-smoothing and actor variants the
training policy obeys the structural-prior exploration floor
`π_tr[example, i] ≥ ε · n_leaves(sink i) / n_leaves(node)` — not the uniform
floor `ε / n_sinks` — and in particular every entry is strictly positive, so
every branch retains nonzero selection probability. -/
theorem claim_C3_amended (ε τ : ℝ) (ℓ : Layer) (hε0 : 0 < ε) (hε1 : ε < 1)
    (hlen : ℓ.rx.length = ℓ.sinks.length) (i : ℕ) (hi : i < ℓ.sinks.length) :
    ε * ((n_leaves (ℓ.sinks.get ⟨i, hi⟩) : ℝ) / (n_leaves ℓ : ℝ))
      ≤ (π_tr ε τ ℓ).getD i 0 ∧
    0 < (π_tr ε τ ℓ).getD i 0 := by
  have h1 := pi_tr_entry_ge ε τ ℓ hε0.le hε1.le hlen i hi
  refine ⟨h1, lt_of_lt_of_le ?_ h1⟩
  have h2 : (0 : ℝ) < (n_leaves (ℓ.sinks.get ⟨i, hi⟩) : ℝ) := by
    exact_mod_cast Nat.lt_of_lt_of_le Nat.zero_lt_one
      (n_leaves_pos (ℓ.sinks.get ⟨i, hi⟩))
  have h3 : (0 : ℝ) < (n_leaves ℓ : ℝ) := by
    exact_mod_cast Nat.lt_of_lt_of_le Nat.zero_lt_one (n_leaves_pos ℓ)
  exact mul_pos hε0 (div_pos h2 h3)

/-- Witness for the amended C3 at the unbalanced node. -/
theorem claim_C3_witness :
    (1 / 2 : ℝ) *
        ((n_leaves (exUnbal.sinks.get
          ⟨0, by simp [exUnbal, Layer.sinks]⟩) : ℝ) / (n_leaves exUnbal : ℝ))
      ≤ (π_tr (1 / 2) 1 exUnbal).getD 0 0 ∧
    0 < (π_tr (1 / 2) 1 exUnbal).getD 0 0 :=
  claim_C3_amended (1 / 2) 1 exUnbal (by norm_num) (by norm_num)
    (by simp [exUnbal, Layer.rx, Layer.sinks]) 0
    (by simp [exUnbal, Layer.sinks])

/-! ### Claim C4: the cost-regression policy -/

theorem listMin_neg : ∀ (z : List ℝ),
    listMin (z.map (fun a => -a)) = -listMax z
  | [] => by simp [listMin, listMax]
  | [x] => by simp [listMin, listMax]
  | x :: y :: t => by
      have ih := listMin_neg (y :: t)
      simp only [List.map_cons] at ih ⊢
      rw [listMin, listMax, ih, min_neg_neg]

theorem argminIdx_neg : ∀ (z : List ℝ),
    argminIdx (z.map (fun a => -a)) = argmaxIdx z
  | [] => by simp [argminIdx, argmaxIdx]
  | [x] => by simp [argminIdx, argmaxIdx]
  | x :: y :: t => by
      have ih := argminIdx_neg (y :: t)
      have hmin := listMin_neg (y :: t)
      simp only [List.map_cons] at ih hmin ⊢
      rw [argminIdx, argmaxIdx, hmin]
      by_cases h : listMax (y :: t) ≤ x
      · rw [if_pos (by linarith), if_pos h]
      · rw [if_neg (by intro h2; exact h (by linarith)), if_neg h, ih]

/-- Counterexample to C4 as stated: at a two-sink cost-regression node with
router output `[0, 2]`, the code's evaluation policy is one-hot at the
arg-MAX of the router output (`[0, 1]`), not at the arg-min of the predicted
costs (`[1, 0]`), so reading the router output as a per-branch cost estimate
contradicts the claimed arg-min selection. -/
theorem claim_C4_counterexample :
    π_ev exTree2 = [0, 1] ∧ π_ev_spec exTree2 = [1, 0] ∧
      π_ev exTree2 ≠ π_ev_spec exTree2 := by
  have h1 : argmaxIdx exTree2.rx = 1 := by
    simp only [exTree2, Layer.rx]
    norm_num [argmaxIdx, listMax]
  have h2 : argminIdx exTree2.rx = 0 := by
    simp only [exTree2, Layer.rx]
    norm_num [argminIdx, listMin]
  have h3 : π_ev exTree2 = [0, 1] := by
    simp [π_ev, exTree2, Layer.sinks, List.range_succ] at h1 ⊢
    rw [h1]
    norm_num
  have h4 : π_ev_spec exTree2 = [1, 0] := by
    simp [π_ev_spec, exTree2, Layer.sinks, List.range_succ] at h2 ⊢
    rw [h2]
    norm_num
  refine ⟨h3, h4, ?_⟩
  rw [h3, h4]
  intro h
  have := List.head_eq_of_cons_eq h
  norm_num at this

/-- Claim C4, amended: in the cost-regression variant `route_sinks_cr_dyn`,
`π_ev` is the one-hot indicator of the arg-max of the router output (the
regression trains the output toward the negated branch cost, and the
arg-max of a row is exactly the first-match arg-min of its negation), and
`π_tr = (1-ε)·softmax(router output/τ) + ε·w_struct` — the same smoothed
softmax blend as decision smoothing, not a hard policy blend. -/
theorem claim_C4_amended (ε τ : ℝ) (ℓ : Layer) (h2 : 2 ≤ ℓ.sinks.length)
    (hlen : ℓ.rx.length = ℓ.sinks.length) :
    (π_ev ℓ).getD (argmaxIdx ℓ.rx) 0 = 1 ∧
    (∀ i < ℓ.sinks.length, i ≠ argmaxIdx ℓ.rx → (π_ev ℓ).getD i 0 = 0) ∧
    argmaxIdx ℓ.rx = argminIdx (ℓ.rx.map (fun a => -a)) ∧
    (∀ i < ℓ.sinks.length,
      (π_tr ε τ ℓ).getD i 0 =
        (1 - ε) * (softmaxRow τ ℓ.rx).getD i 0 +
          ε * (w_struct ℓ).getD i 0) := by
  have hs : ℓ.sinks ≠ [] := by
    intro h
    rw [h] at h2
    simp at h2
  have hrx : ℓ.rx ≠ [] := by
    intro h
    rw [h] at hlen
    exact hs (List.eq_nil_of_length_eq_zero hlen.symm)
  have hargs : argmaxIdx ℓ.rx < ℓ.sinks.length := by
    have := argmaxIdx_lt ℓ.rx hrx
    omega
  refine ⟨?_, ?_, (argminIdx_neg ℓ.rx).symm, ?_⟩
  · rw [pi_ev_getD ℓ _ hargs]
    simp
  · intro i hi hne
    rw [pi_ev_getD ℓ i hi]
    exact if_neg hne
  · intro i hi
    have hπ : i < (π_tr ε τ ℓ).length := by
      rw [pi_tr_length ε τ ℓ hlen]
      exact hi
    have hi1 : i < (softmaxRow τ ℓ.rx).length := by
      rw [softmaxRow_length]
      omega
    have hi2 : i < (w_struct ℓ).length := by
      rw [w_struct_length]
      exact hi
    rw [List.getD_eq_getElem _ 0 hπ, List.getD_eq_getElem _ 0 hi1,
      List.getD_eq_getElem _ 0 hi2]
    simp only [π_tr, List.getElem_zipWith]

/-- Witness for the amended C4 at the concrete two-sink node. -/
theorem claim_C4_witness :
    (π_ev exTree2).getD (argmaxIdx exTree2.rx) 0 = 1 ∧
    (∀ i < exTree2.sinks.length, i ≠ argmaxIdx exTree2.rx →
      (π_ev exTree2).getD i 0 = 0) ∧
    argmaxIdx exTree2.rx = argminIdx (exTree2.rx.map (fun a => -a)) ∧
    (∀ i < exTree2.sinks.length,
      (π_tr (1 / 2) 1 exTree2).getD i 0 =
        (1 - 1 / 2) * (softmaxRow 1 exTree2.rx).getD i 0 +
          (1 / 2) * (w_struct exTree2).getD i 0) :=
  claim_C4_amended (1 / 2) 1 exTree2 (by simp [exTree2, Layer.sinks])
    (by simp [exTree2, Layer.sinks, Layer.rx])

/-! ### Claim C5: the cost-regression auxiliary loss -/

/-- A two-sink cost-regression node predicting `[1, 1]` over two unit-loss
leaves. -/
def exCre : Layer := Layer.mk 0 0 [1, 1] 0 [exLeaf, exLeaf]

theorem zip_sg_eq : ∀ (rx ts ts2 : List Dual),
    ts.map Dual.v = ts2.map Dual.v →
    List.zipWith (fun x t => Dual.sq (x.add (Dual.sg t))) rx ts
      = List.zipWith (fun x t => Dual.sq (x.add (Dual.sg t))) rx ts2
  | [], _, _, _ => by simp
  | _ :: _, [], ts2, h => by
      cases ts2 with
      | nil => rfl
      | cons a b => simp at h
  | x :: xs, t :: ts, [], h => by simp at h
  | x :: xs, t :: ts, t2 :: ts2, h => by
      simp only [List.map_cons, List.cons.injEq] at h
      simp only [List.zipWith_cons_cons]
      rw [zip_sg_eq xs ts ts2 h.2]
      have hsg : Dual.sg t = Dual.sg t2 := by
        simp [Dual.sg, h.1]
      rw [hsg]

/-- Counterexample to C5 as stated: with zero compute penalty, `k_cre = 1`,
router prediction row `[1, 1]` and both branch costs realized at `1`, the
code's auxiliary loss is `(1+1)² + (1+1)² = 8`, while the claimed squared
error between the prediction and the realized cost is
`(1-1)² + (1-1)² = 0` — the code adds the detached target to the
prediction instead of subtracting it. -/
theorem claim_C5_counterexample :
    c_cre 0 1 false exCre = 8 ∧ c_cre_spec 0 1 false exCre = 0 ∧
      c_cre 0 1 false exCre ≠ c_cre_spec 0 1 false exCre := by
  have hev : c_ev 0 exLeaf = 1 := by
    simp [c_ev, c_evSum, exLeaf]
  have h1 : c_cre 0 1 false exCre = 8 := by
    simp [c_cre, cr_target, exCre, Layer.sinks, Layer.rx, hev]
    norm_num
  have h2 : c_cre_spec 0 1 false exCre = 0 := by
    simp [c_cre_spec, cr_target, exCre, Layer.sinks, Layer.rx, hev]
  exact ⟨h1, h2, by rw [h1, h2]; norm_num⟩

/-- Claim C5, amended: at every branching cost-regression node the auxiliary
loss is `k_cre` times the sum over branches of the square of (prediction
PLUS realized downstream cost of that branch — `c_ev`, or `c_opt` in
optimistic mode), i.e. the squared error between the prediction and the
NEGATED realized cost, summed over all branches rather than only the chosen
one; and the `tf.stop_gradient` on the target makes the loss insensitive to
the target's derivatives: on dual numbers, `c_cre` depends on the targets
only through their values. -/
theorem claim_C5_amended (k_cpt k_cre : ℝ) (optimistic : Bool) (ℓ : Layer)
    (h2 : 2 ≤ ℓ.sinks.length) :
    c_cre k_cpt k_cre optimistic ℓ = k_cre *
      (List.zipWith (fun xi s => (xi + cr_target k_cpt optimistic s) ^ 2)
        ℓ.rx ℓ.sinks).sum ∧
    (∀ (k : Dual) (rx ts ts2 : List Dual), ts.map Dual.v = ts2.map Dual.v →
      c_creD k rx ts = c_creD k rx ts2) := by
  constructor
  · unfold c_cre
    rw [if_neg (by omega)]
  · intro k rx ts ts2 h
    unfold c_creD
    rw [zip_sg_eq rx ts ts2 h]

/-- Witness for the amended C5 at the concrete cost-regression node. -/
theorem claim_C5_witness :
    c_cre 0 1 false exCre = 1 *
      (List.zipWith (fun xi s => (xi + cr_target 0 false s) ^ 2)
        exCre.rx exCre.sinks).sum ∧
    (∀ (k : Dual) (rx ts ts2 : List Dual), ts.map Dual.v = ts2.map Dual.v →
      c_creD k rx ts = c_creD k rx ts2) :=
  claim_C5_amended 0 1 false exCre (by simp [exCre, Layer.sinks])

/-! ### Claims C6 and C7: error mapping -/

theorem runEM_d_tr (lam : ℝ) : ∀ (steps : List EMStep) (s : EMState),
    (runEM lam steps s).d_tr =
      lam ^ (countTr steps) * s.d_tr + (1 - lam ^ (countTr steps))
  | [], s => by simp [runEM, countTr]
  | .tr b :: rest, s => by
      rw [runEM, runEM_d_tr lam rest, countTr]
      simp only [update_μ_tr]
      ring
  | .vl b :: rest, s => by
      rw [runEM, runEM_d_tr lam rest, countTr]
      simp only [update_μ_vl]

theorem runEM_d_vl (lam : ℝ) : ∀ (steps : List EMStep) (s : EMState),
    (runEM lam steps s).d_vl =
      lam ^ (countVl steps) * s.d_vl + (1 - lam ^ (countVl steps))
  | [], s => by simp [runEM, countVl]
  | .tr b :: rest, s => by
      rw [runEM, runEM_d_vl lam rest, countVl]
      simp only [update_μ_tr]
  | .vl b :: rest, s => by
      rw [runEM, runEM_d_vl lam rest, countVl]
      simp only [update_μ_vl]
      ring

theorem d_of_count (lam : ℝ) (hl0 : 0 ≤ lam) (hl1 : lam < 1) (k : ℕ) :
    (0 < 1 - lam ^ k ↔ 1 ≤ k) ∧ 0 ≤ 1 - lam ^ k := by
  constructor
  · constructor
    · intro h
      by_contra hk
      push_neg at hk
      interval_cases k
      simp at h
    · intro hk
      have := pow_lt_one₀ hl0 hl1 (n := k) (by omega)
      linarith
  · have := pow_le_one₀ hl0 hl1.le (n := k)
    linarith

/-- Claim C6: starting from the initialized error-mapping state and after
any sequence of update operations, the corrected loss is
`c_err - μ_tr/d_tr + μ_vl/d_vl` whenever both normalizers are strictly
positive and the raw `c_err` otherwise; moreover a normalizer is strictly
positive exactly when its update operation has run at least once, so the
passthrough is precisely the cold-start case. -/
theorem claim_C6 (lam c : ℝ) (hl0 : 0 ≤ lam) (hl1 : lam < 1)
    (steps : List EMStep) :
    (0 < (runEM lam steps emInit).d_tr ∧ 0 < (runEM lam steps emInit).d_vl →
      c_err_cor c (runEM lam steps emInit) =
        c - (runEM lam steps emInit).μ_tr / (runEM lam steps emInit).d_tr
          + (runEM lam steps emInit).μ_vl / (runEM lam steps emInit).d_vl) ∧
    (¬(0 < (runEM lam steps emInit).d_tr ∧
        0 < (runEM lam steps emInit).d_vl) →
      c_err_cor c (runEM lam steps emInit) = c) ∧
    (0 < (runEM lam steps emInit).d_tr ↔ 1 ≤ countTr steps) ∧
    (0 < (runEM lam steps emInit).d_vl ↔ 1 ≤ countVl steps) := by
  have htr : (runEM lam steps emInit).d_tr = 1 - lam ^ (countTr steps) := by
    rw [runEM_d_tr]
    simp [emInit]
  have hvl : (runEM lam steps emInit).d_vl = 1 - lam ^ (countVl steps) := by
    rw [runEM_d_vl]
    simp [emInit]
  obtain ⟨htr_iff, htr_nn⟩ := d_of_count lam hl0 hl1 (countTr steps)
  obtain ⟨hvl_iff, hvl_nn⟩ := d_of_count lam hl0 hl1 (countVl steps)
  refine ⟨?_, ?_, by rw [htr]; exact htr_iff, by rw [hvl]; exact hvl_iff⟩
  · rintro ⟨h1, h2⟩
    unfold c_err_cor
    rw [if_pos (mul_pos h1 h2)]
  · intro h
    have htrnn : 0 ≤ (runEM lam steps emInit).d_tr := by
      rw [htr]
      exact htr_nn
    have hvlnn : 0 ≤ (runEM lam steps emInit).d_vl := by
      rw [hvl]
      exact hvl_nn
    have hcond : ¬ (0 < (runEM lam steps emInit).d_tr *
        (runEM lam steps emInit).d_vl) := by
      intro hprod
      exact h ⟨by nlinarith, by nlinarith⟩
    unfold c_err_cor
    rw [if_neg hcond]

/-- Witness for C6 after one training and one validation update. -/
theorem claim_C6_witness :
    (0 < (runEM (1 / 2) [EMStep.tr 2, EMStep.vl 3] emInit).d_tr ∧
        0 < (runEM (1 / 2) [EMStep.tr 2, EMStep.vl 3] emInit).d_vl →
      c_err_cor 5 (runEM (1 / 2) [EMStep.tr 2, EMStep.vl 3] emInit) =
        5 - (runEM (1 / 2) [EMStep.tr 2, EMStep.vl 3] emInit).μ_tr /
              (runEM (1 / 2) [EMStep.tr 2, EMStep.vl 3] emInit).d_tr
          + (runEM (1 / 2) [EMStep.tr 2, EMStep.vl 3] emInit).μ_vl /
              (runEM (1 / 2) [EMStep.tr 2, EMStep.vl 3] emInit).d_vl) ∧
    (¬(0 < (runEM (1 / 2) [EMStep.tr 2, EMStep.vl 3] emInit).d_tr ∧
        0 < (runEM (1 / 2) [EMStep.tr 2, EMStep.vl 3] emInit).d_vl) →
      c_err_cor 5 (runEM (1 / 2) [EMStep.tr 2, EMStep.vl 3] emInit) = 5) ∧
    (0 < (runEM (1 / 2) [EMStep.tr 2, EMStep.vl 3] emInit).d_tr ↔
      1 ≤ countTr [EMStep.tr 2, EMStep.vl 3]) ∧
    (0 < (runEM (1 / 2) [EMStep.tr 2, EMStep.vl 3] emInit).d_vl ↔
      1 ≤ countVl [EMStep.tr 2, EMStep.vl 3]) :=
  claim_C6 (1 / 2) 5 (by norm_num) (by norm_num) [EMStep.tr 2, EMStep.vl 3]

theorem runEM_replicate_tr (lam L : ℝ) : ∀ (n : ℕ) (s : EMState),
    (runEM lam (List.replicate n (EMStep.tr L)) s).μ_tr
        = lam ^ n * s.μ_tr + (1 - lam ^ n) * L ∧
    (runEM lam (List.replicate n (EMStep.tr L)) s).d_tr
        = lam ^ n * s.d_tr + (1 - lam ^ n)
  | 0, s => by simp [runEM]
  | n + 1, s => by
      rw [List.replicate_succ, runEM]
      obtain ⟨h1, h2⟩ := runEM_replicate_tr lam L n (update_μ_tr lam L s)
      rw [h1, h2]
      simp only [update_μ_tr]
      constructor <;> ring

/-- Counterexample to C7 as stated: with the admissible smoothing rate
`λ = 0`, the normalizer is not strictly increasing in the number of updates:
it equals `1` after one and after two applications of `update_μ_tr`. -/
theorem claim_C7_counterexample :
    (iterTr 0 7 1).d_tr = 1 ∧ (iterTr 0 7 2).d_tr = 1 ∧
      ¬ (iterTr 0 7 1).d_tr < (iterTr 0 7 2).d_tr := by
  norm_num [iterTr, List.replicate_succ, List.replicate_zero, runEM,
    update_μ_tr, emInit]

/-- Claim C7, amended: for every smoothing rate `λ ∈ [0,1)` and constant
batch statistic `L`, after `n ≥ 1` applications of `update_μ_tr` from the
initialized state the normalizer equals `1 - λ^n` — nondecreasing in `n`,
strictly increasing when `λ > 0`, and converging to `1` — and the
bias-corrected average `μ_tr / d_tr` equals `L` exactly. -/
theorem claim_C7_amended (lam L : ℝ) (n : ℕ) (hl0 : 0 ≤ lam) (hl1 : lam < 1)
    (hn : 1 ≤ n) :
    (iterTr lam L n).d_tr = 1 - lam ^ n ∧
    (iterTr lam L n).μ_tr / (iterTr lam L n).d_tr = L ∧
    (iterTr lam L n).d_tr ≤ (iterTr lam L (n + 1)).d_tr ∧
    (0 < lam → (iterTr lam L n).d_tr < (iterTr lam L (n + 1)).d_tr) ∧
    Filter.Tendsto (fun m => (iterTr lam L m).d_tr) Filter.atTop
      (nhds 1) := by
  have hstate : ∀ m : ℕ, (iterTr lam L m).μ_tr = (1 - lam ^ m) * L ∧
      (iterTr lam L m).d_tr = 1 - lam ^ m := by
    intro m
    obtain ⟨h1, h2⟩ := runEM_replicate_tr lam L m emInit
    unfold iterTr
    rw [h1, h2]
    simp [emInit]
  obtain ⟨hμ, hd⟩ := hstate n
  obtain ⟨_, hd1⟩ := hstate (n + 1)
  have hpow : lam ^ n < 1 := pow_lt_one₀ hl0 hl1 (by omega)
  have hpow1 : lam ^ (n + 1) ≤ lam ^ n := by
    rw [pow_succ]
    nlinarith [pow_nonneg hl0 n]
  refine ⟨hd, ?_, ?_, ?_, ?_⟩
  · rw [hμ, hd]
    have hne : 1 - lam ^ n ≠ 0 := by linarith
    rw [mul_comm, mul_div_assoc, div_self hne, mul_one]
  · rw [hd, hd1]
    linarith
  · intro hlam
    rw [hd, hd1]
    have : lam ^ (n + 1) < lam ^ n := by
      rw [pow_succ]
      have hpn : 0 < lam ^ n := pow_pos hlam n
      nlinarith
    linarith
  · have htend : Filter.Tendsto (fun m : ℕ => lam ^ m) Filter.atTop
        (nhds 0) := tendsto_pow_atTop_nhds_zero_of_lt_one hl0 hl1
    have heq : (fun m : ℕ => (iterTr lam L m).d_tr)
        = (fun m : ℕ => 1 - lam ^ m) := by
      funext m
      exact (hstate m).2
    rw [heq]
    have := Filter.Tendsto.const_sub (1 : ℝ) htend
    simpa using this

/-- Witness for the amended C7 at `λ = 1/2`, `L = 3`, `n = 2`. -/
theorem claim_C7_witness :
    (iterTr (1 / 2) 3 2).d_tr = 1 - (1 / 2 : ℝ) ^ 2 ∧
    (iterTr (1 / 2) 3 2).μ_tr / (iterTr (1 / 2) 3 2).d_tr = 3 ∧
    (iterTr (1 / 2) 3 2).d_tr ≤ (iterTr (1 / 2) 3 3).d_tr ∧
    (0 < (1 / 2 : ℝ) →
      (iterTr (1 / 2) 3 2).d_tr < (iterTr (1 / 2) 3 3).d_tr) ∧
    Filter.Tendsto (fun m => (iterTr (1 / 2) 3 m).d_tr) Filter.atTop
      (nhds 1) :=
  claim_C7_amended (1 / 2) 3 2 (by norm_num) (by norm_num) (by norm_num)

/-! ### Claim C8: gradient scaling -/

theorem lookupLast_append_none (θ : ℕ) (a b : List (ℕ × ℝ))
    (hb : lookupLast θ b = none) :
    lookupLast θ (a ++ b) = lookupLast θ a := by
  induction a with
  | nil => simpa using hb
  | cons p ps ih =>
    obtain ⟨k, v⟩ := p
    simp only [List.cons_append, lookupLast, List.append_eq, ih]

theorem lookupLast_append_some (θ : ℕ) (a b : List (ℕ × ℝ)) (r : ℝ)
    (hb : lookupLast θ b = some r) :
    lookupLast θ (a ++ b) = some r := by
  induction a with
  | nil => simpa using hb
  | cons p ps ih =>
    obtain ⟨k, v⟩ := p
    simp only [List.cons_append, lookupLast, List.append_eq, ih]

theorem lookupLast_none_of_forall (θ : ℕ) : ∀ (l : List (ℕ × ℝ)),
    (∀ p ∈ l, p.1 ≠ θ) → lookupLast θ l = none
  | [], _ => rfl
  | (k, v) :: rest, h => by
      simp only [lookupLast,
        lookupLast_none_of_forall θ rest (fun p hp => h p (by simp [hp]))]
      rw [if_neg (h (k, v) (by simp))]

theorem lookupLast_all_eq (θ : ℕ) (v : ℝ) : ∀ (l : List (ℕ × ℝ)),
    (∃ p ∈ l, p.1 = θ) → (∀ p ∈ l, p.1 = θ → p.2 = v) →
    lookupLast θ l = some v
  | [], hex, _ => by simp at hex
  | (k, w) :: rest, hex, hall => by
      by_cases hrest : ∃ p ∈ rest, p.1 = θ
      · rw [lookupLast, lookupLast_all_eq θ v rest hrest
          (fun p hp hpθ => hall p (by simp [hp]) hpθ)]
      · have hrnone : lookupLast θ rest = none := by
          apply lookupLast_none_of_forall
          push_neg at hrest
          exact hrest
        have hk : k = θ := by
          obtain ⟨p, hp, hpθ⟩ := hex
          rcases List.mem_cons.mp hp with rfl | hp2
          · exact hpθ
          · exact absurd ⟨p, hp2, hpθ⟩ hrest
        have hw : w = v := hall (k, w) (by simp) hk
        rw [lookupLast, hrnone]
        simp [hk, hw]

theorem meanSq_replicate_one (n : ℕ) (hn : 0 < n) :
    meanSq (List.replicate n (1 : ℝ)) = 1 := by
  unfold meanSq
  rw [List.map_replicate, List.sum_replicate, List.length_replicate]
  simp only [nsmul_eq_mul, mul_one]
  exact div_self (by exact_mod_cast hn.ne')

theorem mem_own_entries {net : List OptLayer} {p : ℕ × ℝ}
    (hp : p ∈ (net.map (fun ℓ =>
      ℓ.own.map (fun θ => (θ, 1 / Real.sqrt (meanSq ℓ.p_tr))))).flatten) :
    ∃ ℓ ∈ net, p.1 ∈ ℓ.own ∧ p.2 = 1 / Real.sqrt (meanSq ℓ.p_tr) := by
  rw [List.mem_flatten] at hp
  obtain ⟨l, hl, hpl⟩ := hp
  rw [List.mem_map] at hl
  obtain ⟨ℓ, hℓ, rfl⟩ := hl
  rw [List.mem_map] at hpl
  obtain ⟨θ, hθ, rfl⟩ := hpl
  exact ⟨ℓ, hℓ, hθ, rfl⟩

theorem mem_rtr_entries {net : List OptLayer} {α_rtr : ℝ} {p : ℕ × ℝ}
    (hp : p ∈ (net.map (fun ℓ =>
      ℓ.rtr.map (fun θ => (θ, α_rtr / Real.sqrt (meanSq ℓ.p_tr))))).flatten) :
    ∃ ℓ ∈ net, p.1 ∈ ℓ.rtr ∧ p.2 = α_rtr / Real.sqrt (meanSq ℓ.p_tr) := by
  rw [List.mem_flatten] at hp
  obtain ⟨l, hl, hpl⟩ := hp
  rw [List.mem_map] at hl
  obtain ⟨ℓ, hℓ, rfl⟩ := hl
  rw [List.mem_map] at hpl
  obtain ⟨θ, hθ, rfl⟩ := hpl
  exact ⟨ℓ, hℓ, hθ, rfl⟩

theorem lookup_layer_param (net : List OptLayer) (α_rtr : ℝ) (θ : ℕ)
    (ℓ : OptLayer) (hmem : ℓ ∈ net) (hown : θ ∈ ℓ.own)
    (hnr : ∀ p ∈ net, θ ∉ p.rtr)
    (huni : ∀ p ∈ net, θ ∈ p.own → p = ℓ) :
    lookupLast θ (lrEntries net α_rtr) =
      some (1 / Real.sqrt (meanSq ℓ.p_tr)) := by
  unfold lrEntries
  rw [lookupLast_append_none]
  · apply lookupLast_all_eq
    · refine ⟨(θ, 1 / Real.sqrt (meanSq ℓ.p_tr)), ?_, rfl⟩
      rw [List.mem_flatten]
      refine ⟨ℓ.own.map (fun θ2 => (θ2, 1 / Real.sqrt (meanSq ℓ.p_tr))),
        ?_, ?_⟩
      · rw [List.mem_map]
        exact ⟨ℓ, hmem, rfl⟩
      · rw [List.mem_map]
        exact ⟨θ, hown, rfl⟩
    · intro p hp hpθ
      obtain ⟨ℓ2, hℓ2, hpo, hpv⟩ := mem_own_entries hp
      rw [hpθ] at hpo
      rw [huni ℓ2 hℓ2 hpo] at hpv
      exact hpv
  · apply lookupLast_none_of_forall
    intro p hp
    obtain ⟨ℓ2, hℓ2, hpo, _⟩ := mem_rtr_entries hp
    intro hpθ
    rw [hpθ] at hpo
    exact hnr ℓ2 hℓ2 hpo

theorem lookup_router_param (net : List OptLayer) (α_rtr : ℝ) (θ : ℕ)
    (ℓ : OptLayer) (hmem : ℓ ∈ net) (hown : θ ∈ ℓ.rtr)
    (huni : ∀ p ∈ net, θ ∈ p.rtr → p = ℓ) :
    lookupLast θ (lrEntries net α_rtr) =
      some (α_rtr / Real.sqrt (meanSq ℓ.p_tr)) := by
  unfold lrEntries
  apply lookupLast_append_some
  apply lookupLast_all_eq
  · refine ⟨(θ, α_rtr / Real.sqrt (meanSq ℓ.p_tr)), ?_, rfl⟩
    rw [List.mem_flatten]
    refine ⟨ℓ.rtr.map (fun θ2 => (θ2, α_rtr / Real.sqrt (meanSq ℓ.p_tr))),
      ?_, ?_⟩
    · rw [List.mem_map]
      exact ⟨ℓ, hmem, rfl⟩
    · rw [List.mem_map]
      exact ⟨θ, hown, rfl⟩
  · intro p hp hpθ
    obtain ⟨ℓ2, hℓ2, hpo, hpv⟩ := mem_rtr_entries hp
    rw [hpθ] at hpo
    rw [huni ℓ2 hℓ2 hpo] at hpv
    exact hpv

/-- Claim C8: `minimize_expected` multiplies the gradient of a parameter
owned by layer `ℓ` by exactly `1 / sqrt(mean(p_tr²))` over the current
minibatch, router parameters by `α_rtr / sqrt(mean(p_tr²))`; a parameter
whose owning layer is visited with probability one throughout the batch is
scaled by exactly `1` (`α_rtr` for its router's parameters); `None`
gradients are skipped. -/
theorem claim_C8 (net : List OptLayer) (α_rtr : ℝ) (θ θr : ℕ)
    (ℓ ℓr : OptLayer) (g : ℝ) (grads : List (Option ℝ × ℕ))
    (hmem : ℓ ∈ net) (hown : θ ∈ ℓ.own)
    (hnr : ∀ p ∈ net, θ ∉ p.rtr)
    (huni : ∀ p ∈ net, θ ∈ p.own → p = ℓ)
    (hrmem : ℓr ∈ net) (hrown : θr ∈ ℓr.rtr)
    (hruni : ∀ p ∈ net, θr ∈ p.rtr → p = ℓr) :
    lookupLast θ (lrEntries net α_rtr) =
      some (1 / Real.sqrt (meanSq ℓ.p_tr)) ∧
    lookupLast θr (lrEntries net α_rtr) =
      some (α_rtr / Real.sqrt (meanSq ℓr.p_tr)) ∧
    (∀ n : ℕ, 0 < n → ℓ.p_tr = List.replicate n 1 →
      lookupLast θ (lrEntries net α_rtr) = some 1) ∧
    (∀ n : ℕ, 0 < n → ℓr.p_tr = List.replicate n 1 →
      lookupLast θr (lrEntries net α_rtr) = some α_rtr) ∧
    ((some g, θ) ∈ grads →
      (1 / Real.sqrt (meanSq ℓ.p_tr) * g, θ) ∈ scaledGrads net α_rtr grads) ∧
    (∀ (rest : List (Option ℝ × ℕ)) (θ2 : ℕ),
      scaledGrads net α_rtr ((none, θ2) :: rest) =
        scaledGrads net α_rtr rest) := by
  have ha := lookup_layer_param net α_rtr θ ℓ hmem hown hnr huni
  have hb := lookup_router_param net α_rtr θr ℓr hrmem hrown hruni
  refine ⟨ha, hb, ?_, ?_, ?_, ?_⟩
  · intro n hn hrep
    rw [ha, hrep, meanSq_replicate_one n hn, Real.sqrt_one, div_one]
  · intro n hn hrep
    rw [hb, hrep, meanSq_replicate_one n hn, Real.sqrt_one, div_one]
  · intro hg
    unfold scaledGrads
    rw [List.mem_filterMap]
    refine ⟨(some g, θ), hg, ?_⟩
    dsimp only
    rw [ha]
    rfl
  · intro rest θ2
    unfold scaledGrads
    rw [List.filterMap_cons]

/-- Witness for C8 on a one-layer net with batch `p_tr = [1, 1]`. -/
theorem claim_C8_witness :
    lookupLast 0 (lrEntries [OptLayer.mk [1, 1] [0] [1]] 2) =
      some (1 / Real.sqrt (meanSq (OptLayer.mk [1, 1] [0] [1]).p_tr)) ∧
    lookupLast 1 (lrEntries [OptLayer.mk [1, 1] [0] [1]] 2) =
      some (2 / Real.sqrt (meanSq (OptLayer.mk [1, 1] [0] [1]).p_tr)) ∧
    (∀ n : ℕ, 0 < n → (OptLayer.mk [1, 1] [0] [1]).p_tr =
        List.replicate n 1 →
      lookupLast 0 (lrEntries [OptLayer.mk [1, 1] [0] [1]] 2) = some 1) ∧
    (∀ n : ℕ, 0 < n → (OptLayer.mk [1, 1] [0] [1]).p_tr =
        List.replicate n 1 →
      lookupLast 1 (lrEntries [OptLayer.mk [1, 1] [0] [1]] 2) = some 2) ∧
    ((some 5, 0) ∈ [((some 5 : Option ℝ), 0)] →
      (1 / Real.sqrt (meanSq (OptLayer.mk [1, 1] [0] [1]).p_tr) * 5, 0) ∈
        scaledGrads [OptLayer.mk [1, 1] [0] [1]] 2
          [((some 5 : Option ℝ), 0)]) ∧
    (∀ (rest : List (Option ℝ × ℕ)) (θ2 : ℕ),
      scaledGrads [OptLayer.mk [1, 1] [0] [1]] 2 ((none, θ2) :: rest) =
        scaledGrads [OptLayer.mk [1, 1] [0] [1]] 2 rest) :=
  claim_C8 [OptLayer.mk [1, 1] [0] [1]] 2 0 1
    (OptLayer.mk [1, 1] [0] [1]) (OptLayer.mk [1, 1] [0] [1]) 5
    [((some 5 : Option ℝ), 0)]
    (by simp) (by simp) (by simp) (by simp) (by simp) (by simp) (by simp)

/-! ### Claim C9: divisions and unvisited branches -/

theorem probsL_pos (ε τ : ℝ) : ∀ (ss : List Layer),
    (∀ s ∈ ss, ∀ p : ℝ, 0 < p → ∀ q ∈ probs ε τ p s, 0 < q) →
    ∀ p : ℝ, 0 < p → ∀ q ∈ probsL ε τ p ss, 0 < q
  | [], _, p, _, q, hq => by simp [probsL] at hq
  | s :: ts, h, p, hp, q, hq => by
      simp only [probsL, List.mem_append] at hq
      rcases hq with hq | hq
      · exact h s (by simp) p hp q hq
      · exact probsL_pos ε τ ts (fun t ht => h t (by simp [ht])) p hp q hq

theorem probsDyn_pos (ε τ : ℝ) : ∀ (ws : List ℝ) (ss : List Layer),
    (∀ s ∈ ss, ∀ p : ℝ, 0 < p → ∀ q ∈ probs ε τ p s, 0 < q) →
    (∀ w ∈ ws, 0 < w) → ∀ p : ℝ, 0 < p →
    ∀ q ∈ probsDyn ε τ p ws ss, 0 < q
  | _, [], _, _, p, _, q, hq => by simp [probsDyn] at hq
  | [], _ :: _, _, _, p, _, q, hq => by simp [probsDyn] at hq
  | w :: ws, s :: ts, h, hw, p, hp, q, hq => by
      simp only [probsDyn, List.mem_append] at hq
      rcases hq with hq | hq
      · exact h s (by simp) (p * w) (mul_pos hp (hw w (by simp))) q hq
      · exact probsDyn_pos ε τ ws ts (fun t ht => h t (by simp [ht]))
          (fun w2 hw2 => hw w2 (by simp [hw2])) p hp q hq

theorem probs_pos (ε τ : ℝ) (hε0 : 0 ≤ ε) (hε1 : ε ≤ 1) :
    ∀ (ℓ : Layer), wf ℓ = true → ∀ (p : ℝ), 0 < p →
      ∀ q ∈ probs ε τ p ℓ, 0 < q := by
  intro ℓ
  induction ℓ using Layer.ind with
  | h ce no rx rno sinks ih =>
    intro hwf p hp q hq
    obtain ⟨hdyn, hsinks⟩ := (wf_mk ce no rx rno sinks).mp hwf
    have ihs : ∀ s ∈ sinks, ∀ p2 : ℝ, 0 < p2 →
        ∀ q2 ∈ probs ε τ p2 s, 0 < q2 :=
      fun s hs => ih s hs (wfL_mem hsinks hs)
    by_cases hlt : sinks.length < 2
    · rw [probs, if_pos hlt] at hq
      rcases List.mem_cons.mp hq with rfl | hq2
      · exact hp
      · exact probsL_pos ε τ sinks ihs p hp q hq2
    · rw [probs, if_neg hlt] at hq
      rcases List.mem_cons.mp hq with rfl | hq2
      · exact hp
      · have hlen : rx.length = sinks.length := by
          rcases hdyn with h | h
          · exact absurd h hlt
          · exact h
        have hrx : (Layer.mk ce no rx rno sinks).rx ≠ [] := by
          simp only [Layer.rx]
          intro h0
          rw [h0] at hlen
          simp at hlen
          omega
        exact probsDyn_pos ε τ _ sinks ihs
          (pi_tr_mem_pos ε τ (Layer.mk ce no rx rno sinks) hε0 hε1 hrx)
          p hp q hq2

/-- Counterexample to C9 as stated: the batch-mean division of
`add_error_mapping` carries no guard, so a minibatch whose visitation
probabilities sum to exactly zero does divide by zero — modeled here by the
`none` (NaN) result of `μ_batch`. -/
theorem claim_C9_counterexample : μ_batch [0, 0] [1, 1] = none := by
  simp [μ_batch]

/-- Claim C9, amended: the division in `add_error_mapping` is not guarded;
instead it is unreachable in exact arithmetic: under any of the routing
variants every node receives a strictly positive training visitation
probability (the softmax and the structural-prior floor are both positive),
so the minibatch sum of `p_tr` at any node is strictly positive and
`μ_batch` is well-defined on every reachable batch. -/
theorem claim_C9_amended (ε τ : ℝ) (ℓ : Layer) (hε0 : 0 ≤ ε) (hε1 : ε ≤ 1)
    (hwf : wf ℓ = true) :
    (∀ q ∈ probs ε τ 1 ℓ, 0 < q) ∧
    (∀ (ps cs : List ℝ), ps ≠ [] → (∀ q ∈ ps, 0 < q) →
      μ_batch ps cs =
        some ((List.zipWith (fun p c => p * c) ps cs).sum / ps.sum)) := by
  constructor
  · exact probs_pos ε τ hε0 hε1 ℓ hwf 1 one_pos
  · intro ps cs hne hpos
    unfold μ_batch
    rw [if_neg (List.sum_pos ps hpos hne).ne']

/-- Witness for the amended C9 at the concrete unbalanced tree. -/
theorem claim_C9_witness :
    (∀ q ∈ probs (1 / 2) 1 1 exUnbal, 0 < q) ∧
    (∀ (ps cs : List ℝ), ps ≠ [] → (∀ q ∈ ps, 0 < q) →
      μ_batch ps cs =
        some ((List.zipWith (fun p c => p * c) ps cs).sum / ps.sum)) :=
  claim_C9_amended (1 / 2) 1 exUnbal (by norm_num) (by norm_num)
    (by simp [wf, wfL, exUnbal, exWide, exLeaf])

end Multipath
